import Mathlib

/-!
Verification of the lattice-based partial-key-exposure core of the
Attack4WeakRSA repository.

The Python sources are shallowly embedded: arbitrary-precision integers
become `Int`, the floating-point Gram-Schmidt coefficients of the LLL
reducer become exact integer fractions (`PKEA.Frac`), Python exceptions become
`Except String`, and the unbounded `while` loop of the reducer becomes a
fuel-indexed recursion (`none` = iteration budget exhausted, which models
non-termination of the loop).  Sources embedded here:

* `src/pkea/core/polynomial.py`        (class Polynomial)
* `src/pkea/lll_algorithm.py`          (class ImprovedLLL)
* `src/pkea/core/coppersmith_attack.py` (improved_coppersmith_attack)
* `src/pkea/attack/exposure_model.py`  (simulate_exposure, recover_private_key)
* `src/pkea/attack/partial_key_attack.py` (PartialKeyExposureAttack.run)
-/

/-- Mathlib's polynomials over ℤ, used only as a specification device to
characterize the list-based convolution of the embedded `PKEA.Polynomial`. -/
abbrev MPoly := Polynomial ℤ

namespace PKEA

/-! ## Definitions -/

/-- Embeds `class Polynomial` of `src/pkea/core/polynomial.py`: a list of
integer coefficients, index = degree, index 0 = constant term.  The Python
class stores `self.coeffs` verbatim; no trimming of trailing zeros. -/
structure Polynomial where
  coeffs : List ℤ
  deriving DecidableEq, Repr

/-- Python `self.degree = len(coeffs) - 1 if coeffs else -1`. -/
def Polynomial.degree (p : Polynomial) : ℤ :=
  if p.coeffs = [] then -1 else (p.coeffs.length : ℤ) - 1

/-- Python `Polynomial.evaluate`: `result += coeff * (x ** i)` over
`enumerate(self.coeffs)`. -/
def Polynomial.evaluate (p : Polynomial) (x : ℤ) : ℤ :=
  (p.coeffs.enum.map fun ic => ic.2 * x ^ ic.1).sum

/-- Python `Polynomial.__mul__` with an `int` argument:
`[coeff * other for coeff in self.coeffs]`. -/
def Polynomial.mulScalar (p : Polynomial) (other : ℤ) : Polynomial :=
  ⟨p.coeffs.map fun coeff => coeff * other⟩

/-- Python `Polynomial.__mul__` with a `Polynomial` argument: allocates
`[0] * (result_degree + 1)` and accumulates
`result_coeffs[i + j] += coeff1 * coeff2` over both coefficient lists.
The in-place `+=` on position `i + j` is rendered by `List.set`/`List.getD`. -/
def Polynomial.mul (p other : Polynomial) : Polynomial :=
  let result_degree := p.degree + other.degree
  let init : List ℤ := List.replicate (result_degree + 1).toNat 0
  ⟨p.coeffs.enum.foldl
    (fun acc ic =>
      other.coeffs.enum.foldl
        (fun acc2 jc =>
          acc2.set (ic.1 + jc.1) (acc2.getD (ic.1 + jc.1) 0 + ic.2 * jc.2))
        acc)
    init⟩

/-- Python `Polynomial.__pow__`: `if exponent == 0: return Polynomial([1])`,
otherwise `result = Polynomial([1])` followed by `for _ in range(exponent):
result = result * self`.  For a negative exponent `range(exponent)` is empty,
so the loop body never runs. -/
def Polynomial.pow (p : Polynomial) (exponent : ℤ) : Polynomial :=
  if exponent = 0 then ⟨[1]⟩
  else (List.range exponent.toNat).foldl (fun result _ => result.mul p) ⟨[1]⟩

/-- The Mathlib polynomial with the same coefficients; specification device. -/
noncomputable def coeffPoly (p : Polynomial) : MPoly :=
  ∑ i ∈ Finset.range p.coeffs.length, Polynomial.C (p.coeffs.getD i 0) * Polynomial.X ^ i

/-! ### Exposure model (`src/pkea/attack/exposure_model.py`) -/

/-- Embeds `class ExposureType` of `src/pkea/attack/exposure_model.py`. -/
inductive ExposureType
  | MSB
  | LSB
  deriving DecidableEq, Repr

/-- Embeds the dataclass `ExposureResult` of `src/pkea/attack/exposure_model.py`. -/
structure ExposureResult where
  d0 : ℕ
  x_true : ℕ
  X : ℕ
  exposure_type : ExposureType
  known_bits : ℕ
  unknown_bits : ℕ
  deriving DecidableEq, Repr

/-- Embeds `simulate_exposure` of `src/pkea/attack/exposure_model.py`.
The Python function computes `known_bits = int(d_bits * delta)` from a float
ratio `delta`; that single float multiplication is abstracted by taking the
resulting `known_bits` as the parameter (every ratio `0 < delta < 1` produces
some `known_bits ≤ d_bits`).  Everything else is a direct translation:
`d.bit_length()` is `Nat.size`, and `>>`, `<<`, `&` are the `Nat` shift and
mask operations. -/
def simulate_exposure (d : ℕ) (known_bits : ℕ) (exposure_type : ExposureType) :
    ExposureResult :=
  let d_bits := Nat.size d
  let unknown_bits := d_bits - known_bits
  match exposure_type with
  | ExposureType.MSB =>
    let shift := d_bits - known_bits
    let d0 := (d >>> shift) <<< shift
    let x_true := d - d0
    let X := 2 ^ shift
    ⟨d0, x_true, X, ExposureType.MSB, known_bits, unknown_bits⟩
  | ExposureType.LSB =>
    let mask := (1 <<< known_bits) - 1
    let d0 := d &&& mask
    let x_true := (d - d0) >>> known_bits
    let X := 2 ^ unknown_bits
    ⟨d0, x_true, X, ExposureType.LSB, known_bits, unknown_bits⟩

/-- Embeds `recover_private_key` of `src/pkea/attack/exposure_model.py`:
MSB exposure rebuilds `d0 + x`, LSB exposure rebuilds `(x << known_bits) + d0`. -/
def recover_private_key (d0 : ℕ) (x_recovered : ℕ) (exposure_type : ExposureType)
    (known_bits : ℕ) : ℕ :=
  match exposure_type with
  | ExposureType.MSB => d0 + x_recovered
  | ExposureType.LSB => (x_recovered <<< known_bits) + d0

/-! ### LLL reduction (`src/pkea/lll_algorithm.py`, class ImprovedLLL)

The Python class computes Gram-Schmidt projection coefficients in floating
point while keeping the basis vectors as exact integers.  The embedding
carries those coefficients as exact (unnormalized) integer fractions `Frac`;
the basis-level theorems in this file hold for any value of the coefficients,
so the float/exact precision difference does not affect them, and concrete
witnesses use small values on which the float arithmetic of the source is
exact. -/

/-- Exact integer fraction `num/den`, the embedding of the Python `float`
values produced by `gram_schmidt` (projection coefficients, orthogonal
vectors, squared norms).  Fractions are never normalized — all operations
below are plain integer formulas, and every constructed denominator is kept
positive. -/
structure Frac where
  num : ℤ
  den : ℤ
  deriving DecidableEq, Repr

/-- `float(x)` for an integer `x`. -/
def Frac.ofInt (n : ℤ) : Frac := ⟨n, 1⟩

instance : Zero Frac := ⟨⟨0, 1⟩⟩

instance : One Frac := ⟨⟨1, 1⟩⟩

instance : Add Frac := ⟨fun a b => ⟨a.num * b.den + b.num * a.den, a.den * b.den⟩⟩

instance : Sub Frac := ⟨fun a b => ⟨a.num * b.den - b.num * a.den, a.den * b.den⟩⟩

instance : Mul Frac := ⟨fun a b => ⟨a.num * b.num, a.den * b.den⟩⟩

/-- Division; the sign is moved into the numerator so that denominators stay
positive.  (The source divides only by a nonzero `norm_sq`.) -/
instance : Div Frac := ⟨fun a b =>
  let n := a.num * b.den
  let d := a.den * b.num
  if d < 0 then ⟨-n, -d⟩ else ⟨n, d⟩⟩

instance : Pow Frac ℕ := ⟨fun a n => ⟨a.num ^ n, a.den ^ n⟩⟩

instance : LE Frac := ⟨fun a b => a.num * b.den ≤ b.num * a.den⟩

instance : LT Frac := ⟨fun a b => a.num * b.den < b.num * a.den⟩

instance (a b : Frac) : Decidable (a ≤ b) :=
  inferInstanceAs (Decidable (a.num * b.den ≤ b.num * a.den))

instance (a b : Frac) : Decidable (a < b) :=
  inferInstanceAs (Decidable (a.num * b.den < b.num * a.den))

/-- `abs()` of a fraction value (denominators are positive by construction). -/
def Frac.abs (a : Frac) : Frac := if a.num < 0 then ⟨-a.num, a.den⟩ else a

/-- Floor of the fraction value (exact for a positive denominator). -/
def Frac.floor (a : Frac) : ℤ := Int.fdiv a.num a.den

/-- Python's built-in `round()` (round-half-to-even), used by the
size-reduction step `q = round(mu[k][j])`. -/
def pythonRound (q : Frac) : ℤ :=
  let fl := q.floor
  let frac := q - Frac.ofInt fl
  if frac < ⟨1, 2⟩ then fl
  else if (⟨1, 2⟩ : Frac) < frac then fl + 1
  else if fl % 2 = 0 then fl else fl + 1

/-- The body of the `for i in range(m)` loop of `ImprovedLLL.gram_schmidt` for
one row `B[i]`: `v` starts as the float copy of `B[i]`; for each previous
orthogonal row `B_star[j]` the projection coefficient
`mu[i][j] = dot_product / norm_sq` (or `0.0` when `norm_sq == 0`; the float
zero test on a fraction value is a zero numerator) is recorded and
`v[k] -= mu[i][j] * B_star[j][k]` is applied for `k in range(n)`.
Returns the finished `v` together with the filled row `mu[i][0..i-1]`. -/
def gsOneRow (Bi : List ℤ) (n : ℕ) (stars : List (List Frac)) :
    List Frac × List Frac :=
  stars.foldl
    (fun vm Bsj =>
      let dot : Frac :=
        ((List.range n).map fun k => Frac.ofInt (Bi.getD k 0) * Bsj.getD k 0).sum
      let norm_sq : Frac :=
        ((List.range n).map fun k => Bsj.getD k 0 * Bsj.getD k 0).sum
      let muij : Frac := if norm_sq.num ≠ 0 then dot / norm_sq else 0
      ((List.range n).map fun k => vm.1.getD k 0 - muij * Bsj.getD k 0,
        vm.2 ++ [muij]))
    (Bi.map Frac.ofInt, [])

/-- Embeds `ImprovedLLL.gram_schmidt`: `m = len(B)`, `n = len(B[0])`; returns
`(B_star, mu)`.  The Python code preallocates `mu` as an `m x m` zero matrix
and fills only the entries `mu[i][j]` with `j < i`; the entries at `j >= i`
keep the value `0.0` and are never read, so `mu` is represented by the filled
prefixes and read through `getD _ 0`. -/
def gram_schmidt (B : List (List ℤ)) : List (List Frac) × List (List Frac) :=
  let n := (B.headD []).length
  B.foldl
    (fun sm Bi =>
      let vm := gsOneRow Bi n sm.1
      (sm.1 ++ [vm.1], sm.2 ++ [vm.2]))
    ([], [])

/-- The body of the size-reduction loop `for j in range(k - 1, -1, -1)` of
`ImprovedLLL.reduce`: when `abs(mu[k][j]) > 0.5`, subtract
`q = round(mu[k][j])` times row `j` from row `k` (entrywise over
`range(len(B_reduced[0]))`) and recompute the full Gram-Schmidt data;
otherwise leave the state unchanged.  The state is `(B_reduced, B_star, mu)`. -/
def sizeReduceStep (k : ℕ) (st : List (List ℤ) × List (List Frac) × List (List Frac))
    (j : ℕ) : List (List ℤ) × List (List Frac) × List (List Frac) :=
  let mukj := (st.2.2.getD k []).getD j 0
  if (⟨1, 2⟩ : Frac) < mukj.abs then
    let q := pythonRound mukj
    let n := (st.1.headD []).length
    let newRow := (List.range n).map fun idx =>
      (st.1.getD k []).getD idx 0 - q * (st.1.getD j []).getD idx 0
    let B' := st.1.set k newRow
    let gs := gram_schmidt B'
    (B', gs.1, gs.2)
  else st

/-- The size-reduction loop of `ImprovedLLL.reduce` for index `k`:
`for j in range(k - 1, -1, -1)`, i.e. `j = k-1, ..., 0`. -/
def sizeReduce (B : List (List ℤ)) (Bstar mu : List (List Frac)) (k : ℕ) :
    List (List ℤ) × List (List Frac) × List (List Frac) :=
  ((List.range k).reverse).foldl (sizeReduceStep k) (B, Bstar, mu)

/-- The `while k < m` loop of `ImprovedLLL.reduce`, indexed by the remaining
iteration budget `fuel` (one unit per executed loop iteration; `none` models a
loop that has not terminated within the budget).  Each iteration size-reduces
row `k`, then tests the Lovász condition
`norm_B_star_k >= (delta - mu[k][k-1] ** 2) * norm_B_star_k_minus_1`,
advancing `k` on success and otherwise swapping rows `k-1`, `k`, recomputing
Gram-Schmidt and setting `k = max(k - 1, 1)`. -/
def lllLoop (delta : Frac) (m : ℕ) :
    ℕ → ℕ → List (List ℤ) → List (List Frac) → List (List Frac) →
      Option (List (List ℤ))
  | 0, k, B, _, _ => if k < m then none else some B
  | fuel + 1, k, B, Bstar, mu =>
    if k < m then
      let st := sizeReduce B Bstar mu k
      let B1 := st.1
      let Bstar1 := st.2.1
      let mu1 := st.2.2
      let norm_km1 := ((Bstar1.getD (k - 1) []).map fun x => x * x).sum
      let norm_k := ((Bstar1.getD k []).map fun x => x * x).sum
      let mukk1 := (mu1.getD k []).getD (k - 1) 0
      if (delta - mukk1 ^ 2) * norm_km1 ≤ norm_k then
        lllLoop delta m fuel (k + 1) B1 Bstar1 mu1
      else
        let rowk1 := B1.getD (k - 1) []
        let rowk := B1.getD k []
        let B2 := (B1.set (k - 1) rowk).set k rowk1
        let gs := gram_schmidt B2
        lllLoop delta m fuel (max (k - 1) 1) B2 gs.1 gs.2
    else some B

/-- Embeds `ImprovedLLL.reduce` (`self.delta` is passed explicitly: the class
constructor `__init__` merely stores it and performs no validation).  The
source first copies the caller's matrix, `B_reduced = [row[:] for row in B]`;
a value-level copy is the identity, and every subsequent write targets
`B_reduced` only.  `m <= 1` returns the basis unchanged before the loop.
`none` means the iteration budget was exhausted (the `while` loop did not
terminate within `fuel` iterations). -/
def ImprovedLLL.reduce (delta : Frac) (B : List (List ℤ)) (fuel : ℕ) :
    Option (List (List ℤ)) :=
  let m := B.length
  if m ≤ 1 then some B
  else
    let B_reduced := B
    let gs := gram_schmidt B_reduced
    lllLoop delta m fuel 1 B_reduced gs.1 gs.2

/-- The caller-visible effect of one call `lll.reduce(B)`: the pair is
(the caller's matrix after the call, the returned matrix).  Because the
source's first statement copies every row and all later writes
(`B_reduced[k][i] -= ...`, row swaps) target `B_reduced` only, the caller's
binding still holds the original rows when the call returns. -/
def ImprovedLLL.reduceCall (delta : Frac) (B : List (List ℤ)) (fuel : ℕ) :
    List (List ℤ) × Option (List (List ℤ)) :=
  (B, ImprovedLLL.reduce delta B fuel)

/-! ### Row-span machinery for the lattice-preservation invariant -/

/-- A row read as a coefficient function (entries beyond the row are 0). -/
def rowFun (r : List ℤ) : ℕ → ℤ := fun i => r.getD i 0

/-- The row is an integer linear combination of the rows of `rows`. -/
def inRowSpan (rows : List (List ℤ)) (r : List ℤ) : Prop :=
  rowFun r ∈ Submodule.span ℤ (rowFun '' setOf (fun v => v ∈ rows))

/-- Invariant carried through the reduction loop: same row count as the
original basis, all rows of the working width, every row an integer linear
combination of the original rows. -/
def LatticeInv (orig : List (List ℤ)) (n : ℕ) (B : List (List ℤ)) : Prop :=
  B.length = orig.length ∧ (∀ r ∈ B, r.length = n) ∧ ∀ r ∈ B, inRowSpan orig r

/-! ### Coppersmith attack (`src/pkea/core/coppersmith_attack.py`)

Embeds `improved_coppersmith_attack`.  Python exceptions are `Except.error`
(the `max()` call on an empty generator when no shift polynomial exists, and
`ZeroDivisionError` from `% M` with `M == 0` in the verification step); the
outer `Option` is `none` exactly when the LLL iteration budget runs out.
Lean's `%` on `Int` (`Int.emod`) and Python's `%` agree on the only use made
of it here, the test `... % M == 0`, which both render as divisibility by
`M`; Python's floor division `//` is `Int.fdiv`. -/

/-- `range(n)` for a Python int `n` (empty when `n <= 0`). -/
def intRange (n : ℤ) : List ℤ := (List.range n.toNat).map Int.ofNat

/-- `f_coeffs = [e * d0 - 1, e]`: the base polynomial
`f(x) = e*x + (e*d0 - 1)`. -/
def fPoly (e d0 : ℤ) : Polynomial := ⟨[e * d0 - 1, e]⟩

/-- `Polynomial([0] * i + [1])`, i.e. `x^i` (built when `i > 0`). -/
def xShiftPoly (i : ℤ) : Polynomial := ⟨List.replicate i.toNat 0 ++ [1]⟩

/-- The loop body constructing one shift polynomial:
`poly = Polynomial([1])`; `poly = poly * x^i` when `i > 0`;
`poly = poly * (f_poly ** j)` when `j > 0`;
`poly = poly * (M ** (m - j))` when `m - j > 0`. -/
def buildShiftPoly (e d0 M m : ℤ) (i j : ℤ) : Polynomial :=
  let f_poly := fPoly e d0
  let poly0 : Polynomial := ⟨[1]⟩
  let poly1 := if 0 < i then poly0.mul (xShiftPoly i) else poly0
  let poly2 := if 0 < j then poly1.mul (f_poly.pow j) else poly1
  if 0 < m - j then poly2.mulScalar (M ^ (m - j).toNat) else poly2

/-- The shift-polynomial family:
`for j in range(m + 1): for i in range(m + 1): if i + j <= m + t:
polynomials.append(g_(i,j))`. -/
def buildPolynomials (e d0 M m t : ℤ) : List Polynomial :=
  (intRange (m + 1)).flatMap fun j =>
    (intRange (m + 1)).filterMap fun i =>
      if i + j ≤ m + t then some (buildShiftPoly e d0 M m i j) else none

/-- One matrix row: `row = [0] * lattice_dim`, then for
`(deg, coeff) in enumerate(poly.coeffs)`, if `deg < lattice_dim` assign
`row[deg] = coeff * (X ** deg)`. -/
def buildRow (poly : Polynomial) (X : ℤ) (lattice_dim : ℕ) : List ℤ :=
  poly.coeffs.enum.foldl
    (fun row dc => if dc.1 < lattice_dim then row.set dc.1 (dc.2 * X ^ dc.1) else row)
    (List.replicate lattice_dim 0)

/-- `lattice_matrix`: one row per shift polynomial, each of width
`lattice_dim = len(polynomials)`. -/
def buildLatticeMatrix (polys : List Polynomial) (X : ℤ) : List (List ℤ) :=
  polys.map fun poly => buildRow poly X polys.length

/-- `value = 0; for deg, coeff in enumerate(poly_coeffs): value += coeff *
(test_x ** deg)`. -/
def evalCandidate (coeffs : List ℤ) (tx : ℤ) : ℤ :=
  (coeffs.enum.map fun dc => dc.2 * tx ^ dc.1).sum

/-- Unscaling one reduced vector back into polynomial coefficients:
`coeff = vector[deg] // (X ** deg)` when `X ** deg != 0`, else the raw entry
(Python floor division `//` is `Int.fdiv`). -/
def reconstructCoeffs (vector : List ℤ) (X : ℤ) : List ℤ :=
  vector.enum.map fun dc =>
    if X ^ dc.1 ≠ 0 then Int.fdiv dc.2 (X ^ dc.1) else dc.2

/-- `range(-v, 0)` for `v = min(X, 10000)` (empty when `v <= 0`). -/
def negRange (v : ℤ) : List ℤ := (List.range v.toNat).map fun n => -v + n

deriving instance DecidableEq for Except

/-- One candidate loop (`for test_x in ...`): on `value == 0` and the strict
bound check `lo < test_x < hi`, the original congruence
`(e * (d0 + test_x) - 1) % M == 0` is verified (`M == 0` raises
`ZeroDivisionError`); a candidate failing the modular check is skipped and the
loop continues. -/
def tryCandidates (e d0 M : ℤ) (coeffs : List ℤ) (lo hi : ℤ) :
    List ℤ → Except String (Option ℤ)
  | [] => Except.ok none
  | tx :: rest =>
    if evalCandidate coeffs tx = 0 ∧ lo < tx ∧ tx < hi then
      if M = 0 then Except.error "integer modulo by zero"
      else if (e * (d0 + tx) - 1) % M = 0 then Except.ok (some tx)
      else tryCandidates e d0 M coeffs lo hi rest
    else tryCandidates e d0 M coeffs lo hi rest

/-- The per-vector search: reconstruct the polynomial, test the positive
candidates `range(0, min(X, 10000))` against `0 < test_x < X`, then the
negative candidates `range(-min(X, 10000), 0)` against `-X < test_x < 0`. -/
def searchVector (e d0 X M : ℤ) (vector : List ℤ) : Except String (Option ℤ) :=
  let poly_coeffs := reconstructCoeffs vector X
  match tryCandidates e d0 M poly_coeffs 0 X (intRange (min X 10000)) with
  | Except.error s => Except.error s
  | Except.ok (some x) => Except.ok (some x)
  | Except.ok none => tryCandidates e d0 M poly_coeffs (-X) 0 (negRange (min X 10000))

/-- The outer loop over the (up to 10) examined short vectors; the first
verified root is returned, an exception aborts, otherwise the next vector is
tried. -/
def searchVectors (e d0 X M : ℤ) : List (List ℤ) → Except String (Option ℤ)
  | [] => Except.ok none
  | v :: vs =>
    match searchVector e d0 X M v with
    | Except.error s => Except.error s
    | Except.ok (some x) => Except.ok (some x)
    | Except.ok none => searchVectors e d0 X M vs

/-- Stable insertion (equal keys keep encounter order) into a list sorted by
ascending squared norm.  The source sorts `(i, norm, row)` tuples by
`norm = math.sqrt(sum(x * x for x in row))` with Python's stable sort;
`sqrt` is strictly monotone, so sorting by the squared norm is the same
ordering, carried here as `(i, squared_norm, row)`. -/
def insertByNorm (x : ℕ × ℤ × List ℤ) :
    List (ℕ × ℤ × List ℤ) → List (ℕ × ℤ × List ℤ)
  | [] => [x]
  | y :: ys => if y.2.1 ≤ x.2.1 then y :: insertByNorm x ys else x :: y :: ys

/-- `vector_norms.sort(key=lambda x: x[1])` as a stable insertion sort. -/
def sortByNorm (l : List (ℕ × ℤ × List ℤ)) : List (ℕ × ℤ × List ℤ) :=
  l.foldl (fun acc x => insertByNorm x acc) []

/-- Embeds `improved_coppersmith_attack(N, e, d0, X, M, m, t)`.  `N` is
accepted and never used, exactly as in the source.  The unused value
`max_degree = max(poly.degree for poly in polynomials)` raises `ValueError`
on an empty family, modelled by the emptiness test; the reducer is
`ImprovedLLL(delta=0.99)`. -/
def improved_coppersmith_attack (N e d0 X M : ℤ) (m t : ℤ) (fuel : ℕ) :
    Option (Except String (Option ℤ)) :=
  let polynomials := buildPolynomials e d0 M m t
  if polynomials = [] then some (Except.error "max() arg is an empty sequence")
  else
    let lattice_matrix := buildLatticeMatrix polynomials X
    match ImprovedLLL.reduce ⟨99, 100⟩ lattice_matrix fuel with
    | none => none
    | some reduced =>
      let vector_norms := reduced.enum.map fun ir =>
        (ir.1, ((ir.2.map fun x => x * x).sum, ir.2))
      let sorted := sortByNorm vector_norms
      some (searchVectors e d0 X M ((sorted.take 10).map fun z => z.2.2))

/-- Embeds the dataclass `AttackResult` of
`src/pkea/attack/partial_key_attack.py`; the wall-clock `elapsed_time` field
is outside the embedding and omitted. -/
structure AttackResult where
  success : Bool
  x_recovered : Option ℤ
  d_recovered : Option ℤ
  details : String
  deriving DecidableEq, Repr

/-- Embeds `PartialKeyExposureAttack.run` (parameters of `__init__` plus the
config's `m`, `t`): the Coppersmith call runs under `try/except Exception`; a
recovered root yields success with `details = f"Recovered x = {x}"`, no root
yields `"No valid root found"`, and a caught exception yields
`f"Error: {e}"`.  The result is `none` only when the LLL budget runs out
(the Python call would still be looping). -/
def PartialKeyExposureAttack.run (N e M d0 X : ℤ) (m t : ℤ) (fuel : ℕ) :
    Option AttackResult :=
  match improved_coppersmith_attack N e d0 X M m t fuel with
  | none => none
  | some (Except.ok (some x)) =>
      some ⟨true, some x, none, "Recovered x = " ++ toString x⟩
  | some (Except.ok none) => some ⟨false, none, none, "No valid root found"⟩
  | some (Except.error msg) => some ⟨false, none, none, "Error: " ++ msg⟩

/-! ### C2: the shift-polynomial family -/

/-- The `(i, j)` index pairs of the shift-polynomial family, in the source's
loop order (`j` outer, `i` inner, guard `i + j <= m + t`). -/
def shiftPairs (m t : ℤ) : List (ℤ × ℤ) :=
  (intRange (m + 1)).flatMap fun j =>
    ((intRange (m + 1)).filter fun i => i + j ≤ m + t).map fun i => (i, j)

/-- The number of admissible pairs `(i, j)` with `0 ≤ i ≤ m`, `0 ≤ j ≤ m`,
`i + j ≤ m + t`, counted as a finite set. -/
def pairCount (m t : ℤ) : ℕ :=
  (((Finset.Icc (0 : ℤ) m) ×ˢ (Finset.Icc (0 : ℤ) m)).filter
    fun p => p.1 + p.2 ≤ m + t).card

/-- The closed form of one shift polynomial: `x^i * f(x)^j * M^(m-j)`. -/
def gSpec (e d0 M m : ℤ) (i j : ℤ) : Polynomial :=
  ((xShiftPoly i).mul ((fPoly e d0).pow j)).mulScalar (M ^ (m - j).toNat)

/-! ## Theorems -/

/-! ### Characterization of the list-level convolution -/

theorem getD_set_eq_ite (l : List ℤ) (n m : ℕ) (v : ℤ) :
    (l.set n v).getD m 0 = if n = m ∧ n < l.length then v else l.getD m 0 := by
  simp only [List.getD_eq_getElem?_getD, List.getElem?_set]
  by_cases h1 : n = m
  · subst h1
    by_cases h2 : n < l.length
    · simp [h2]
    · rw [List.getElem?_eq_none (le_of_not_lt h2)]
      simp [h2]
  · simp [h1]

theorem getD_replicate_zero (n d : ℕ) : (List.replicate n (0 : ℤ)).getD d 0 = 0 := by
  induction n generalizing d with
  | zero => simp [List.getD]
  | succ k ih =>
    cases d with
    | zero => simp [List.replicate_succ]
    | succ d' => simp [List.replicate_succ, ih d']

theorem length_innerFold (i : ℕ) (ci : ℤ) (cs : List ℤ) (s : ℕ) (acc : List ℤ) :
    ((List.enumFrom s cs).foldl
      (fun acc2 jc => acc2.set (i + jc.1) (acc2.getD (i + jc.1) 0 + ci * jc.2)) acc).length
      = acc.length := by
  induction cs generalizing s acc with
  | nil => simp
  | cons c rest ih =>
    simp only [List.enumFrom, List.foldl_cons]
    rw [ih (s + 1)]
    exact List.length_set acc (i + s) _

theorem innerFold_getD (i : ℕ) (ci : ℤ) (cs : List ℤ) (s : ℕ) (acc : List ℤ) (d : ℕ)
    (hlen : i + s + cs.length ≤ acc.length) :
    ((List.enumFrom s cs).foldl
      (fun acc2 jc => acc2.set (i + jc.1) (acc2.getD (i + jc.1) 0 + ci * jc.2)) acc).getD d 0
      = acc.getD d 0 +
        (if i + s ≤ d ∧ d < i + s + cs.length then ci * cs.getD (d - (i + s)) 0 else 0) := by
  induction cs generalizing s acc with
  | nil => simp
  | cons c rest ih =>
    simp only [List.enumFrom, List.foldl_cons, List.length_cons] at hlen ⊢
    rw [ih (s + 1) (acc.set (i + s) (acc.getD (i + s) 0 + ci * c))
      (by rw [List.length_set]; omega)]
    rw [getD_set_eq_ite]
    by_cases hd : i + s = d
    · subst hd
      rw [if_pos ⟨rfl, by omega⟩,
        if_neg (by omega : ¬ (i + (s + 1) ≤ i + s ∧ i + s < i + (s + 1) + rest.length)),
        if_pos (⟨le_refl _, by omega⟩ : i + s ≤ i + s ∧ i + s < i + s + (rest.length + 1))]
      rw [Nat.sub_self, List.getD_cons_zero]
      ring
    · rw [if_neg (fun h => hd h.1)]
      by_cases hin : i + s + 1 ≤ d ∧ d < i + s + 1 + rest.length
      · obtain ⟨hin1, hin2⟩ := hin
        rw [if_pos (by omega : i + (s + 1) ≤ d ∧ d < i + (s + 1) + rest.length),
          if_pos (by omega : i + s ≤ d ∧ d < i + s + (rest.length + 1))]
        have h2 : d - (i + s) = (d - (i + (s + 1))) + 1 := by omega
        rw [h2, List.getD_cons_succ]
      · rw [if_neg (by omega : ¬ (i + (s + 1) ≤ d ∧ d < i + (s + 1) + rest.length)),
          if_neg (by omega : ¬ (i + s ≤ d ∧ d < i + s + (rest.length + 1)))]

theorem length_outerFold (q : List ℤ) (ps : List ℤ) (s : ℕ) (acc : List ℤ) :
    ((List.enumFrom s ps).foldl
      (fun acc ic =>
        (List.enumFrom 0 q).foldl
          (fun acc2 jc => acc2.set (ic.1 + jc.1) (acc2.getD (ic.1 + jc.1) 0 + ic.2 * jc.2))
          acc)
      acc).length = acc.length := by
  induction ps generalizing s acc with
  | nil => simp
  | cons c rest ih =>
    simp only [List.enumFrom, List.foldl_cons]
    rw [ih (s + 1)]
    exact length_innerFold s c q 0 acc

theorem outerFold_getD (q : List ℤ) (ps : List ℤ) (s : ℕ) (acc : List ℤ) (d : ℕ)
    (hlen : ∀ ic ∈ List.enumFrom s ps, ic.1 + q.length ≤ acc.length) :
    ((List.enumFrom s ps).foldl
      (fun acc ic =>
        (List.enumFrom 0 q).foldl
          (fun acc2 jc => acc2.set (ic.1 + jc.1) (acc2.getD (ic.1 + jc.1) 0 + ic.2 * jc.2))
          acc)
      acc).getD d 0
      = acc.getD d 0 +
        ((List.enumFrom s ps).map fun ic =>
          if ic.1 ≤ d ∧ d < ic.1 + q.length then ic.2 * q.getD (d - ic.1) 0 else 0).sum := by
  induction ps generalizing s acc with
  | nil => simp
  | cons c rest ih =>
    simp only [List.enumFrom, List.foldl_cons, List.map_cons, List.sum_cons]
    have hs : s + q.length ≤ acc.length := by
      have := hlen (s, c) (by
        simp only [List.enumFrom]
        exact List.mem_cons_self _ _)
      simpa using this
    have hinner := innerFold_getD s c q 0 acc d (by simpa using hs)
    have hinnerlen := length_innerFold s c q 0 acc
    rw [ih (s + 1) _ (by
      intro ic hic
      rw [hinnerlen]
      exact hlen ic (by
        simp only [List.enumFrom]
        exact List.mem_cons_of_mem _ hic))]
    rw [hinner]
    simp only [Nat.add_zero, Nat.zero_add]
    ring

theorem mul_coeffs_unfold (p q : Polynomial) :
    (p.mul q).coeffs = (List.enumFrom 0 p.coeffs).foldl
      (fun acc ic =>
        (List.enumFrom 0 q.coeffs).foldl
          (fun acc2 jc => acc2.set (ic.1 + jc.1) (acc2.getD (ic.1 + jc.1) 0 + ic.2 * jc.2))
          acc)
      (List.replicate (p.degree + q.degree + 1).toNat 0) := rfl

theorem mul_coeffs_length (p q : Polynomial) :
    (p.mul q).coeffs.length = (p.degree + q.degree + 1).toNat := by
  rw [mul_coeffs_unfold, length_outerFold]
  simp

theorem mul_getD (p q : Polynomial) (d : ℕ) :
    (p.mul q).coeffs.getD d 0
      = (p.coeffs.enum.map fun ic =>
          if ic.1 ≤ d ∧ d < ic.1 + q.coeffs.length
          then ic.2 * q.coeffs.getD (d - ic.1) 0 else 0).sum := by
  rw [mul_coeffs_unfold]
  by_cases hq : q.coeffs = []
  · -- q has no coefficients: every inner fold is a no-op and every guard is false
    rw [show List.enumFrom 0 q.coeffs = [] by rw [hq]; rfl]
    simp only [List.foldl_nil]
    have hfix : ∀ (l : List (ℕ × ℤ)) (acc : List ℤ),
        l.foldl (fun acc _ => acc) acc = acc := by
      intro l
      induction l with
      | nil => intro acc; rfl
      | cons x xs ih =>
        intro acc
        rw [List.foldl_cons]
        exact ih acc
    rw [hfix, getD_replicate_zero]
    symm
    apply List.sum_eq_zero
    intro z hz
    obtain ⟨ic, _, hic⟩ := List.mem_map.mp hz
    rw [← hic, if_neg (by rw [hq]; simp only [List.length_nil, Nat.add_zero]; omega)]
  · by_cases hp : p.coeffs = []
    · rw [hp]
      simp only [List.enumFrom, List.foldl_nil]
      rw [getD_replicate_zero]
      simp [List.enum]
    · -- both nonempty: every write lands inside the allocated list
      have hpd : p.degree = (p.coeffs.length : ℤ) - 1 := by
        simp [Polynomial.degree, hp]
      have hqd : q.degree = (q.coeffs.length : ℤ) - 1 := by
        simp [Polynomial.degree, hq]
      have h1 : (1 : ℕ) ≤ p.coeffs.length := List.length_pos.mpr hp
      have h2 : (1 : ℕ) ≤ q.coeffs.length := List.length_pos.mpr hq
      have hlenform : ((p.degree + q.degree + 1).toNat : ℕ)
          = p.coeffs.length + q.coeffs.length - 1 := by
        rw [hpd, hqd]
        omega
      rw [outerFold_getD]
      · rw [getD_replicate_zero, zero_add]
        rfl
      · intro ic hic
        obtain ⟨i, cv⟩ := ic
        obtain ⟨-, hlt, -⟩ := List.mem_enumFrom hic
        rw [List.length_replicate, hlenform]
        simp only [Nat.zero_add] at hlt
        omega

/-- Sum over an enumerated list as a `Finset.range` sum, with `getD` access. -/
theorem enumFrom_map_sum (g : ℕ → ℤ → ℤ) (l : List ℤ) (s : ℕ) :
    ((List.enumFrom s l).map fun ic => g ic.1 ic.2).sum
      = ∑ i ∈ Finset.range l.length, g (s + i) (l.getD i 0) := by
  induction l generalizing s with
  | nil => simp
  | cons c rest ih =>
    simp only [List.enumFrom, List.map_cons, List.sum_cons, List.length_cons]
    rw [ih (s + 1), Finset.sum_range_succ']
    simp only [List.getD_cons_succ, List.getD_cons_zero, Nat.add_zero]
    rw [add_comm]
    congr 1
    apply Finset.sum_congr rfl
    intro i _
    congr 1
    omega

theorem enum_map_sum (g : ℕ → ℤ → ℤ) (l : List ℤ) :
    (l.enum.map fun ic => g ic.1 ic.2).sum
      = ∑ i ∈ Finset.range l.length, g i (l.getD i 0) := by
  simpa using enumFrom_map_sum g l 0

theorem coeffPoly_coeff (p : Polynomial) (d : ℕ) :
    (coeffPoly p).coeff d = p.coeffs.getD d 0 := by
  unfold coeffPoly
  rw [Polynomial.finset_sum_coeff]
  simp only [Polynomial.coeff_C_mul, Polynomial.coeff_X_pow, mul_ite, mul_one, mul_zero]
  rw [Finset.sum_ite_eq (Finset.range p.coeffs.length) d (fun i => p.coeffs.getD i 0)]
  by_cases h : d < p.coeffs.length
  · simp [h]
  · simp only [Finset.mem_range, h, if_false]
    rw [List.getD_eq_getElem?_getD, List.getElem?_eq_none (by omega)]
    rfl

theorem evaluate_eq_eval (p : Polynomial) (x : ℤ) :
    p.evaluate x = (coeffPoly p).eval x := by
  unfold Polynomial.evaluate coeffPoly
  rw [enum_map_sum (fun i c => c * x ^ i), Polynomial.eval_finset_sum]
  apply Finset.sum_congr rfl
  intro i _
  simp

theorem getD_zero_of_le_length (l : List ℤ) (i : ℕ) (hi : l.length ≤ i) :
    l.getD i 0 = 0 := by
  rw [List.getD_eq_getElem?_getD, List.getElem?_eq_none hi]
  rfl

theorem coeffPoly_mul (p q : Polynomial) :
    coeffPoly (p.mul q) = coeffPoly p * coeffPoly q := by
  ext d
  rw [coeffPoly_coeff, Polynomial.coeff_mul, mul_getD,
    enum_map_sum (fun i c => if i ≤ d ∧ d < i + q.coeffs.length
      then c * q.coeffs.getD (d - i) 0 else 0) p.coeffs]
  rw [Finset.Nat.sum_antidiagonal_eq_sum_range_succ_mk]
  simp only [coeffPoly_coeff]
  -- both sides equal the convolution sum over a common index range
  have hL : (∑ i ∈ Finset.range p.coeffs.length,
        if i ≤ d ∧ d < i + q.coeffs.length
        then p.coeffs.getD i 0 * q.coeffs.getD (d - i) 0 else 0)
      = ∑ i ∈ Finset.range (max p.coeffs.length (d + 1)),
        if i ≤ d ∧ d < i + q.coeffs.length
        then p.coeffs.getD i 0 * q.coeffs.getD (d - i) 0 else 0 := by
    apply Finset.sum_subset (Finset.range_subset.mpr (le_max_left _ _))
    intro k _ hk
    simp only [Finset.mem_range, not_lt] at hk
    by_cases hc : k ≤ d ∧ d < k + q.coeffs.length
    · rw [if_pos hc, getD_zero_of_le_length p.coeffs k hk, zero_mul]
    · rw [if_neg hc]
  have hR : (∑ k ∈ Finset.range (d + 1),
        p.coeffs.getD k 0 * q.coeffs.getD (d - k) 0)
      = ∑ i ∈ Finset.range (max p.coeffs.length (d + 1)),
        if i ≤ d ∧ d < i + q.coeffs.length
        then p.coeffs.getD i 0 * q.coeffs.getD (d - i) 0 else 0 := by
    have hcong : ∀ k ∈ Finset.range (d + 1),
        p.coeffs.getD k 0 * q.coeffs.getD (d - k) 0
        = if k ≤ d ∧ d < k + q.coeffs.length
          then p.coeffs.getD k 0 * q.coeffs.getD (d - k) 0 else 0 := by
      intro k hk
      simp only [Finset.mem_range] at hk
      by_cases h2 : d < k + q.coeffs.length
      · rw [if_pos ⟨by omega, h2⟩]
      · rw [if_neg (by omega), getD_zero_of_le_length q.coeffs (d - k) (by omega), mul_zero]
    rw [Finset.sum_congr rfl hcong]
    apply Finset.sum_subset (Finset.range_subset.mpr (le_max_right _ _))
    intro k _ hk
    simp only [Finset.mem_range, not_lt] at hk
    rw [if_neg (by omega)]
  exact hL.trans hR.symm

theorem evaluate_mul (p q : Polynomial) (x : ℤ) :
    (p.mul q).evaluate x = p.evaluate x * q.evaluate x := by
  rw [evaluate_eq_eval, evaluate_eq_eval, evaluate_eq_eval, coeffPoly_mul,
    Polynomial.eval_mul]

theorem evaluate_one_poly (x : ℤ) : (Polynomial.mk [1]).evaluate x = 1 := by
  simp [Polynomial.evaluate, List.enum]

theorem evaluate_pow (p : Polynomial) (k : ℤ) (x : ℤ) :
    (p.pow k).evaluate x = (p.evaluate x) ^ k.toNat := by
  unfold Polynomial.pow
  by_cases hk : k = 0
  · simp [hk, evaluate_one_poly]
  · rw [if_neg hk]
    induction k.toNat with
    | zero => simpa using evaluate_one_poly x
    | succ n ih =>
      rw [List.range_succ, List.foldl_append]
      simp only [List.foldl_cons, List.foldl_nil]
      rw [evaluate_mul, ih, pow_succ]

theorem getD_eq_getElem_of_lt (l : List ℤ) (i : ℕ) (h : i < l.length) :
    l.getD i 0 = l.get ⟨i, h⟩ := by
  rw [List.getD_eq_getElem?_getD, List.getElem?_eq_getElem h]
  rfl

theorem ext_of_getD (l₁ l₂ : List ℤ) (hlen : l₁.length = l₂.length)
    (h : ∀ d, l₁.getD d 0 = l₂.getD d 0) : l₁ = l₂ := by
  apply List.ext_getElem hlen
  intro i h1 h2
  have := h i
  rw [getD_eq_getElem_of_lt l₁ i h1, getD_eq_getElem_of_lt l₂ i h2] at this
  simpa using this

theorem one_mul_poly (q : Polynomial) : (Polynomial.mk [1]).mul q = q := by
  have hd : (Polynomial.mk [1]).degree = 0 := by simp [Polynomial.degree]
  have hlen : ((Polynomial.mk [1]).mul q).coeffs.length = q.coeffs.length := by
    rw [mul_coeffs_length, hd, zero_add]
    by_cases hq : q.coeffs = []
    · simp [Polynomial.degree, hq]
    · have := List.length_pos.mpr hq
      simp only [Polynomial.degree, hq, if_false]
      omega
  cases q with
  | mk cs =>
    apply congrArg Polynomial.mk
    apply ext_of_getD _ _ hlen
    intro d
    rw [mul_getD]
    show ((List.enumFrom 0 [(1 : ℤ)]).map fun ic =>
        if ic.1 ≤ d ∧ d < ic.1 + cs.length then ic.2 * (cs.getD (d - ic.1) 0) else 0).sum
      = cs.getD d 0
    simp only [List.enumFrom, List.map_cons, List.map_nil, List.sum_cons, List.sum_nil,
      add_zero, Nat.zero_add, Nat.sub_zero, zero_le, true_and, one_mul]
    by_cases hlt : d < cs.length
    · rw [if_pos hlt]
    · rw [if_neg hlt]
      exact (getD_zero_of_le_length cs d (le_of_not_lt hlt)).symm

theorem mul_one_poly (p : Polynomial) : p.mul (Polynomial.mk [1]) = p := by
  have hd : (Polynomial.mk [1]).degree = 0 := by simp [Polynomial.degree]
  have hlen : (p.mul (Polynomial.mk [1])).coeffs.length = p.coeffs.length := by
    rw [mul_coeffs_length, hd, add_zero]
    by_cases hp : p.coeffs = []
    · simp [Polynomial.degree, hp]
    · have := List.length_pos.mpr hp
      simp only [Polynomial.degree, hp, if_false]
      omega
  cases p with
  | mk cs =>
    apply congrArg Polynomial.mk
    apply ext_of_getD _ _ hlen
    intro d
    rw [mul_getD]
    show ((cs.enum).map fun ic =>
        if ic.1 ≤ d ∧ d < ic.1 + 1 then ic.2 * ([(1 : ℤ)].getD (d - ic.1) 0) else 0).sum = _
    rw [enum_map_sum (fun i c =>
        if i ≤ d ∧ d < i + 1 then c * ([(1 : ℤ)].getD (d - i) 0) else 0) cs]
    have hcong : ∀ i ∈ Finset.range cs.length,
        (if i ≤ d ∧ d < i + 1 then cs.getD i 0 * ([(1 : ℤ)].getD (d - i) 0) else 0)
        = if d = i then cs.getD i 0 else 0 := by
      intro i _
      by_cases hi : d = i
      · subst hi
        rw [if_pos ⟨le_refl _, by omega⟩, Nat.sub_self]
        simp
      · rw [if_neg (by omega), if_neg hi]
    rw [Finset.sum_congr rfl hcong,
      Finset.sum_ite_eq (Finset.range cs.length) d (fun i => cs.getD i 0)]
    by_cases hlt : d < cs.length
    · simp [hlt]
    · simp only [Finset.mem_range, hlt, if_false]
      exact (getD_zero_of_le_length cs d (le_of_not_lt hlt)).symm

theorem mulScalar_one (p : Polynomial) : p.mulScalar 1 = p := by
  cases p with
  | mk cs => simp [Polynomial.mulScalar]

theorem evaluate_mulScalar (p : Polynomial) (c : ℤ) (x : ℤ) :
    (p.mulScalar c).evaluate x = p.evaluate x * c := by
  unfold Polynomial.evaluate Polynomial.mulScalar
  cases p with
  | mk cs =>
    show ((cs.map fun coeff => coeff * c).enum.map fun ic => ic.2 * x ^ ic.1).sum = _
    rw [enum_map_sum (fun i cv => cv * x ^ i) cs]
    have : ∀ (s : ℕ), ((List.enumFrom s (cs.map fun coeff => coeff * c)).map
        fun ic => ic.2 * x ^ ic.1).sum
        = ((List.enumFrom s cs).map fun ic => ic.2 * c * x ^ ic.1).sum := by
      intro s
      induction cs generalizing s with
      | nil => simp
      | cons a rest ih => simp [List.enumFrom, ih (s + 1)]
    rw [show (cs.map fun coeff => coeff * c).enum
        = List.enumFrom 0 (cs.map fun coeff => coeff * c) from rfl, this 0,
      enumFrom_map_sum (fun i cv => cv * c * x ^ i) cs 0]
    rw [Finset.sum_mul]
    apply Finset.sum_congr rfl
    intro i _
    ring

/-- C3: for every positive integer private exponent `d` and every exposure split
produced by `simulate_exposure` (exposure type MSB or LSB, any attainable
known-bits count, covering every ratio `0 < delta < 1`), applying
`recover_private_key` to the produced `d0`, `x_true`, exposure type and
`known_bits` returns exactly the original `d`: MSB rebuilds `d0 + x`, LSB
rebuilds `(x << knownBits) + d0`. -/
theorem exposure_round_trip (d : ℕ) (known_bits : ℕ) (et : ExposureType)
    (hd : 0 < d) (hkb : known_bits ≤ Nat.size d) :
    recover_private_key (simulate_exposure d known_bits et).d0
      (simulate_exposure d known_bits et).x_true et known_bits = d := by
  cases et
  case MSB =>
    simp only [simulate_exposure, recover_private_key]
    have h1 : (d >>> (Nat.size d - known_bits)) <<< (Nat.size d - known_bits) ≤ d := by
      rw [Nat.shiftRight_eq_div_pow, Nat.shiftLeft_eq]
      exact Nat.div_mul_le_self d (2 ^ (Nat.size d - known_bits))
    omega
  case LSB =>
    simp only [simulate_exposure, recover_private_key]
    have hmask : (1 <<< known_bits) - 1 = 2 ^ known_bits - 1 := by
      rw [Nat.shiftLeft_eq, one_mul]
    rw [hmask, Nat.and_pow_two_sub_one_eq_mod]
    have hdm : d - d % 2 ^ known_bits = 2 ^ known_bits * (d / 2 ^ known_bits) := by
      have := Nat.div_add_mod d (2 ^ known_bits)
      omega
    rw [hdm, Nat.shiftRight_eq_div_pow,
      Nat.mul_div_cancel_left _ (Nat.pos_pow_of_pos _ (by norm_num)), Nat.shiftLeft_eq]
    exact Nat.div_add_mod' d (2 ^ known_bits)

/-- C3 witness: the round trip at `d = 300000` (a 19-bit value), `known_bits = 8`,
LSB exposure, and at the same `d` with MSB exposure. -/
theorem exposure_round_trip_witness :
    0 < 300000 ∧ 8 ≤ Nat.size 300000 ∧
    recover_private_key (simulate_exposure 300000 8 ExposureType.LSB).d0
      (simulate_exposure 300000 8 ExposureType.LSB).x_true ExposureType.LSB 8 = 300000 :=
  ⟨by decide, Nat.lt_size.mpr (by norm_num),
    exposure_round_trip 300000 8 ExposureType.LSB (by decide)
      (Nat.lt_size.mpr (by norm_num))⟩

/-- C9 counterexample: `Polynomial([2, 3]) ** (-1)` evaluates to the polynomial
`[1]` — a normal polynomial value, not an error — refuting the claim that a
negative exponent is an error condition. -/
theorem pow_neg_counterexample :
    (Polynomial.mk [2, 3]).pow (-1) = Polynomial.mk [1] := by decide

/-- C9 (amended): `Polynomial.__pow__` does not reject negative exponents; for
every polynomial `p` and every integer `k < 0`, `p ** k` returns the identity
polynomial `[1]`, because `range(exponent)` is empty for a negative exponent. -/
theorem pow_neg_exponent (p : Polynomial) (k : ℤ) (hk : k < 0) :
    p.pow k = Polynomial.mk [1] := by
  unfold Polynomial.pow
  rw [if_neg (by omega), Int.toNat_eq_zero.mpr (le_of_lt hk)]
  rfl

/-- C9 witness: the amended theorem instantiated at `p = [2, 3]`, `k = -1`. -/
theorem pow_neg_exponent_witness :
    (-1 : ℤ) < 0 ∧ (Polynomial.mk [2, 3]).pow (-1) = Polynomial.mk [1] :=
  ⟨by decide, pow_neg_exponent (Polynomial.mk [2, 3]) (-1) (by decide)⟩

theorem Frac.le_def (a b : Frac) : a ≤ b ↔ a.num * b.den ≤ b.num * a.den := Iff.rfl

theorem Frac.sub_def (a b : Frac) :
    a - b = ⟨a.num * b.den - b.num * a.den, a.den * b.den⟩ := rfl

theorem Frac.mul_def (a b : Frac) : a * b = ⟨a.num * b.num, a.den * b.den⟩ := rfl

theorem Frac.pow_def (a : Frac) (n : ℕ) : a ^ n = ⟨a.num ^ n, a.den ^ n⟩ := rfl

theorem inRowSpan_of_mem (rows : List (List ℤ)) (r : List ℤ) (h : r ∈ rows) :
    inRowSpan rows r :=
  Submodule.subset_span ⟨r, h, rfl⟩

theorem rowFun_nil : rowFun [] = 0 := by
  funext i
  simp [rowFun, List.getD_eq_getElem?_getD]

theorem inRowSpan_nil_row (rows : List (List ℤ)) : inRowSpan rows [] := by
  unfold inRowSpan
  rw [rowFun_nil]
  exact Submodule.zero_mem _

theorem getD_range_map_ite (f : ℕ → ℤ) (n i : ℕ) :
    ((List.range n).map f).getD i 0 = if i < n then f i else 0 := by
  rw [List.getD_eq_getElem?_getD, List.getElem?_map]
  by_cases h : i < n
  · rw [List.getElem?_range h]
    simp [h]
  · rw [List.getElem?_eq_none (by simpa using le_of_not_lt h)]
    simp [h]

theorem rowFun_subRow (a b : List ℤ) (q : ℤ) (n : ℕ)
    (ha : a.length ≤ n) (hb : b.length ≤ n) :
    rowFun ((List.range n).map fun idx => a.getD idx 0 - q * b.getD idx 0)
      = rowFun a - q • rowFun b := by
  funext i
  simp only [rowFun, Pi.sub_apply, Pi.smul_apply, smul_eq_mul]
  rw [getD_range_map_ite]
  by_cases h : i < n
  · simp [h]
  · rw [if_neg h, getD_zero_of_le_length a i (by omega),
      getD_zero_of_le_length b i (by omega)]
    ring

theorem inRowSpan_subRow (rows : List (List ℤ)) (a b : List ℤ) (q : ℤ) (n : ℕ)
    (hla : a.length ≤ n) (hlb : b.length ≤ n)
    (ha : inRowSpan rows a) (hb : inRowSpan rows b) :
    inRowSpan rows ((List.range n).map fun idx => a.getD idx 0 - q * b.getD idx 0) := by
  unfold inRowSpan at *
  rw [rowFun_subRow a b q n hla hlb]
  exact Submodule.sub_mem _ ha (Submodule.smul_mem _ q hb)

theorem getD_mem_of_lt (B : List (List ℤ)) (k : ℕ) (h : k < B.length) :
    B.getD k [] ∈ B := by
  rw [List.getD_eq_getElem?_getD, List.getElem?_eq_getElem h]
  exact List.getElem_mem h

theorem getD_nil_of_ge (B : List (List ℤ)) (k : ℕ) (h : ¬ k < B.length) :
    B.getD k [] = [] := by
  rw [List.getD_eq_getElem?_getD, List.getElem?_eq_none (le_of_not_lt h)]
  rfl

theorem headD_length (B : List (List ℤ)) (n : ℕ) (hne : B ≠ [])
    (h : ∀ r ∈ B, r.length = n) : (B.headD []).length = n := by
  cases B with
  | nil => exact absurd rfl hne
  | cons r rest => exact h r (List.mem_cons_self r rest)

theorem row_bound_and_span (orig : List (List ℤ)) (n : ℕ) (B : List (List ℤ))
    (h : LatticeInv orig n B) (k : ℕ) :
    (B.getD k []).length ≤ n ∧ inRowSpan orig (B.getD k []) := by
  by_cases hk : k < B.length
  · have hm := getD_mem_of_lt B k hk
    exact ⟨le_of_eq (h.2.1 _ hm), h.2.2 _ hm⟩
  · rw [getD_nil_of_ge B k hk]
    exact ⟨by simp, inRowSpan_nil_row orig⟩

theorem sizeReduceStep_inv (orig : List (List ℤ)) (n : ℕ) (hne : orig ≠ [])
    (k j : ℕ) (st : List (List ℤ) × List (List Frac) × List (List Frac))
    (h : LatticeInv orig n st.1) : LatticeInv orig n (sizeReduceStep k st j).1 := by
  unfold sizeReduceStep
  by_cases hmu : (⟨1, 2⟩ : Frac) < ((st.2.2.getD k []).getD j 0).abs
  · rw [if_pos hmu]
    show LatticeInv orig n (st.1.set k ((List.range (st.1.headD []).length).map
      fun idx => (st.1.getD k []).getD idx 0
        - pythonRound ((st.2.2.getD k []).getD j 0) * (st.1.getD j []).getD idx 0))
    obtain ⟨h1, h2, h3⟩ := h
    have hstne : st.1 ≠ [] := by
      intro hcon
      rw [hcon] at h1
      exact hne (List.eq_nil_of_length_eq_zero h1.symm)
    have hhead : (st.1.headD []).length = n := headD_length st.1 n hstne h2
    have hrowk := row_bound_and_span orig n st.1 ⟨h1, h2, h3⟩ k
    have hrowj := row_bound_and_span orig n st.1 ⟨h1, h2, h3⟩ j
    refine ⟨by rw [List.length_set]; exact h1, ?_, ?_⟩
    · intro r hr
      rcases List.mem_or_eq_of_mem_set hr with hr' | rfl
      · exact h2 r hr'
      · rw [List.length_map, List.length_range, hhead]
    · intro r hr
      rcases List.mem_or_eq_of_mem_set hr with hr' | rfl
      · exact h3 r hr'
      · rw [hhead]
        exact inRowSpan_subRow orig _ _ _ n hrowk.1 hrowj.1 hrowk.2 hrowj.2
  · rw [if_neg hmu]
    exact h

theorem sizeReduce_inv (orig : List (List ℤ)) (n : ℕ) (hne : orig ≠ [])
    (k : ℕ) (B : List (List ℤ)) (Bstar mu : List (List Frac))
    (h : LatticeInv orig n B) : LatticeInv orig n (sizeReduce B Bstar mu k).1 := by
  unfold sizeReduce
  generalize (List.range k).reverse = js
  induction js generalizing B Bstar mu with
  | nil => exact h
  | cons j js ih =>
    rw [List.foldl_cons]
    rcases hst : sizeReduceStep k (B, Bstar, mu) j with ⟨B', S', M'⟩
    have hstep := sizeReduceStep_inv orig n hne k j (B, Bstar, mu) h
    rw [hst] at hstep
    exact ih B' S' M' hstep

theorem swap_inv (orig : List (List ℤ)) (n : ℕ) (k : ℕ) (B : List (List ℤ))
    (h : LatticeInv orig n B) (hk1 : 1 ≤ k) (hk : k < B.length) :
    LatticeInv orig n ((B.set (k - 1) (B.getD k [])).set k (B.getD (k - 1) [])) := by
  obtain ⟨h1, h2, h3⟩ := h
  have hmemk := getD_mem_of_lt B k hk
  have hmemk1 := getD_mem_of_lt B (k - 1) (by omega)
  refine ⟨by rw [List.length_set, List.length_set]; exact h1, ?_, ?_⟩
  · intro r hr
    rcases List.mem_or_eq_of_mem_set hr with hr' | rfl
    · rcases List.mem_or_eq_of_mem_set hr' with hr'' | rfl
      · exact h2 r hr''
      · exact h2 _ hmemk
    · exact h2 _ hmemk1
  · intro r hr
    rcases List.mem_or_eq_of_mem_set hr with hr' | rfl
    · rcases List.mem_or_eq_of_mem_set hr' with hr'' | rfl
      · exact h3 r hr''
      · exact h3 _ hmemk
    · exact h3 _ hmemk1

theorem lllLoop_exit (delta : Frac) (m fuel k : ℕ) (B : List (List ℤ))
    (Bstar mu : List (List Frac)) (h : ¬ k < m) :
    lllLoop delta m fuel k B Bstar mu = some B := by
  cases fuel with
  | zero => rw [lllLoop, if_neg h]
  | succ fuel => rw [lllLoop, if_neg h]

theorem lllLoop_inv (orig : List (List ℤ)) (n : ℕ) (hne : orig ≠ [])
    (delta : Frac) (m : ℕ) (hm : m = orig.length) :
    ∀ (fuel k : ℕ) (B : List (List ℤ)) (Bstar mu : List (List Frac))
      (R : List (List ℤ)), 1 ≤ k → LatticeInv orig n B →
      lllLoop delta m fuel k B Bstar mu = some R → LatticeInv orig n R := by
  intro fuel
  induction fuel with
  | zero =>
    intro k B Bstar mu R _ hinv heq
    rw [lllLoop] at heq
    by_cases hkm : k < m
    · rw [if_pos hkm] at heq
      exact absurd heq (by simp)
    · rw [if_neg hkm] at heq
      obtain rfl := Option.some.inj heq
      exact hinv
  | succ fuel ih =>
    intro k B Bstar mu R hk hinv heq
    rw [lllLoop] at heq
    by_cases hkm : k < m
    · rw [if_pos hkm] at heq
      have hst := sizeReduce_inv orig n hne k B Bstar mu hinv
      by_cases hcond : (delta - (((sizeReduce B Bstar mu k).2.2.getD k []).getD (k - 1) 0) ^ 2)
          * (((sizeReduce B Bstar mu k).2.1.getD (k - 1) []).map fun x => x * x).sum
          ≤ (((sizeReduce B Bstar mu k).2.1.getD k []).map fun x => x * x).sum
      · rw [if_pos hcond] at heq
        exact ih (k + 1) _ _ _ R (by omega) hst heq
      · rw [if_neg hcond] at heq
        have hklen : k < (sizeReduce B Bstar mu k).1.length := by
          rw [hst.1, ← hm]
          exact hkm
        exact ih (max (k - 1) 1) _ _ _ R (le_max_right _ _)
          (swap_inv orig n k (sizeReduce B Bstar mu k).1 hst hk hklen) heq
    · rw [if_neg hkm] at heq
      obtain rfl := Option.some.inj heq
      exact hinv

/-- C10: for every non-empty list of equal-length integer rows, whenever
`ImprovedLLL.reduce` returns (i.e. the while loop terminates within the given
iteration budget), the result has the same number of rows and the same row
length, and every result row is an integer linear combination of the input
rows — the integer lattice spanned by the basis is preserved by every
size-reduction and swap step. -/
theorem reduce_preserves_lattice (delta : Frac) (B : List (List ℤ)) (n fuel : ℕ)
    (R : List (List ℤ)) (hne : B ≠ []) (hlen : ∀ r ∈ B, r.length = n)
    (hred : ImprovedLLL.reduce delta B fuel = some R) :
    R.length = B.length ∧ (∀ r ∈ R, r.length = n) ∧ ∀ r ∈ R, inRowSpan B r := by
  have hinv0 : LatticeInv B n B := ⟨rfl, hlen, fun r hr => inRowSpan_of_mem B r hr⟩
  unfold ImprovedLLL.reduce at hred
  by_cases hm : B.length ≤ 1
  · rw [if_pos hm] at hred
    obtain rfl := Option.some.inj hred
    exact ⟨rfl, hlen, fun r hr => inRowSpan_of_mem B r hr⟩
  · rw [if_neg hm] at hred
    have := lllLoop_inv B n hne delta B.length rfl fuel 1 B
      (gram_schmidt B).1 (gram_schmidt B).2 R (le_refl 1) hinv0 hred
    exact this

/-- C10 witness: the theorem applied to the concrete basis `[[1,0],[2,1]]`
(row length 2, budget 5), which reduces to `[[1,0],[0,1]]`. -/
theorem reduce_preserves_lattice_witness :
    ([[1, 0], [2, 1]] : List (List ℤ)) ≠ []
    ∧ (∀ r ∈ ([[1, 0], [2, 1]] : List (List ℤ)), r.length = 2)
    ∧ ImprovedLLL.reduce ⟨99, 100⟩ [[1, 0], [2, 1]] 5 = some [[1, 0], [0, 1]]
    ∧ (([[1, 0], [0, 1]] : List (List ℤ)).length = ([[1, 0], [2, 1]] : List (List ℤ)).length
        ∧ (∀ r ∈ ([[1, 0], [0, 1]] : List (List ℤ)), r.length = 2)
        ∧ ∀ r ∈ ([[1, 0], [0, 1]] : List (List ℤ)), inRowSpan [[1, 0], [2, 1]] r) :=
  ⟨by decide, by decide, by decide,
    reduce_preserves_lattice ⟨99, 100⟩ [[1, 0], [2, 1]] 2 5 [[1, 0], [0, 1]]
      (by decide) (by decide) (by decide)⟩

/-- C7 counterexample: a dimension-1 lattice basis is not signalled as a
configuration failure: `reduce` on the single-row basis `[[5]]` returns the
basis unchanged as an ordinary success value (before the loop, with no budget
consumed), refuting the claim. -/
theorem reduce_dim_one_counterexample :
    ImprovedLLL.reduce ⟨99, 100⟩ [[5]] 0 = some [[5]]
    ∧ ([[(5 : ℤ)]] : List (List ℤ)).length < 2 := ⟨by decide, by decide⟩

/-- C7 (amended): a lattice basis with fewer than 2 rows is NOT signalled as a
failure; `ImprovedLLL.reduce` returns it unchanged as a silent success
(`if m <= 1: return B`), and the Coppersmith caller performs no dimension
check either. -/
theorem reduce_dim_le_one (delta : Frac) (B : List (List ℤ)) (fuel : ℕ)
    (h : B.length ≤ 1) : ImprovedLLL.reduce delta B fuel = some B := by
  unfold ImprovedLLL.reduce
  rw [if_pos h]

/-- C7 witness: the amended theorem at the one-row basis `[[5]]`. -/
theorem reduce_dim_le_one_witness :
    ([[(5 : ℤ)]] : List (List ℤ)).length ≤ 1
    ∧ ImprovedLLL.reduce ⟨99, 100⟩ [[5]] 0 = some [[5]] :=
  ⟨by decide, reduce_dim_le_one ⟨99, 100⟩ [[5]] 0 (by decide)⟩

/-- C8 counterexample: the caller's matrix is not mutated in place.  After
`reduce` on `[[1,0],[2,1]]` the caller's matrix still holds the original rows
while the returned matrix is the different matrix `[[1,0],[0,1]]` — so the
returned matrix cannot be "that same mutated matrix object". -/
theorem reduceCall_counterexample :
    ImprovedLLL.reduceCall ⟨99, 100⟩ [[1, 0], [2, 1]] 1
      = ([[1, 0], [2, 1]], some [[1, 0], [0, 1]])
    ∧ ([[1, 0], [2, 1]] : List (List ℤ)) ≠ [[1, 0], [0, 1]] := ⟨by decide, by decide⟩

/-- C8 (amended): `ImprovedLLL.reduce` copies the caller's basis
(`B_reduced = [row[:] for row in B]`) and performs all size-reduction
subtractions and row swaps on the copy: the caller's matrix is unchanged after
the call, and the (possibly different) reduced matrix is returned as a new
object. -/
theorem reduceCall_leaves_caller (delta : Frac) (B : List (List ℤ)) (fuel : ℕ) :
    (ImprovedLLL.reduceCall delta B fuel).1 = B := rfl

/-- C6 counterexample: `delta = 1/10` lies outside the open interval
`(0.25, 1)` yet is accepted: neither `__init__` nor `reduce` validates it, and
reduction runs to completion, returning the reduced basis instead of an
error. -/
theorem delta_not_validated_counterexample :
    ImprovedLLL.reduce ⟨1, 10⟩ [[1, 0], [2, 1]] 1 = some [[1, 0], [0, 1]]
    ∧ ¬ ((⟨1, 4⟩ : Frac) < ⟨1, 10⟩ ∧ (⟨1, 10⟩ : Frac) < 1) := ⟨by decide, by decide⟩

theorem Frac.num_one : (1 : Frac).num = 1 := rfl

theorem Frac.den_one : (1 : Frac).den = 1 := rfl

/-- C6 (amended): the LLL reducer performs no validation of `delta` at all:
`__init__` stores any value and `reduce` uses it directly.  In particular, for
every `delta ≤ 1` — including every invalid `delta ≤ 1/4` and the excluded
endpoint `delta = 1` — reduction of the basis `[[1,0],[2,1]]` is carried out
(one size-reduction step fires) and the reduced basis is returned, rather than
the call being rejected before reduction work. -/
theorem reduce_accepts_any_delta (delta : Frac) (fuel : ℕ) (hdelta : delta ≤ 1) :
    ImprovedLLL.reduce delta [[1, 0], [2, 1]] (fuel + 1) = some [[1, 0], [0, 1]] := by
  have hcond : (delta - (⟨0, 1⟩ : Frac) ^ 2) * ⟨1, 1⟩ ≤ (⟨1, 1⟩ : Frac) := by
    rw [Frac.le_def] at hdelta ⊢
    simp only [Frac.sub_def, Frac.mul_def, Frac.pow_def, Frac.num_one, Frac.den_one]
      at hdelta ⊢
    norm_num at hdelta ⊢
    omega
  show (if (delta - (⟨0, 1⟩ : Frac) ^ 2) * ⟨1, 1⟩ ≤ (⟨1, 1⟩ : Frac) then
      lllLoop delta 2 fuel 2 [[1, 0], [0, 1]]
        [[(⟨1, 1⟩ : Frac), ⟨0, 1⟩], [⟨0, 1⟩, ⟨1, 1⟩]] [[], [⟨0, 1⟩]]
    else lllLoop delta 2 fuel 1 [[0, 1], [1, 0]]
      (gram_schmidt [[0, 1], [1, 0]]).1 (gram_schmidt [[0, 1], [1, 0]]).2)
    = some [[1, 0], [0, 1]]
  rw [if_pos hcond]
  exact lllLoop_exit delta 2 fuel 2 [[1, 0], [0, 1]]
    [[(⟨1, 1⟩ : Frac), ⟨0, 1⟩], [⟨0, 1⟩, ⟨1, 1⟩]] [[], [⟨0, 1⟩]] (by decide)

/-- C6 witness: the amended theorem at the invalid `delta = 1/10` with budget
`0 + 1`. -/
theorem reduce_accepts_any_delta_witness :
    (⟨1, 10⟩ : Frac) ≤ 1
    ∧ ImprovedLLL.reduce ⟨1, 10⟩ [[1, 0], [2, 1]] (0 + 1) = some [[1, 0], [0, 1]] :=
  ⟨by decide, reduce_accepts_any_delta ⟨1, 10⟩ 0 (by decide)⟩

/-! ### C1: verification soundness of the returned root -/

theorem tryCandidates_verified (e d0 M : ℤ) (coeffs : List ℤ) (lo hi : ℤ)
    (l : List ℤ) (x : ℤ)
    (h : tryCandidates e d0 M coeffs lo hi l = Except.ok (some x)) :
    M ≠ 0 ∧ (e * (d0 + x) - 1) % M = 0 := by
  induction l with
  | nil =>
    rw [tryCandidates] at h
    exact absurd h (by simp)
  | cons tx rest ih =>
    rw [tryCandidates] at h
    split at h
    · split at h
      · exact absurd h (by simp)
      · split at h
        · simp only [Except.ok.injEq, Option.some.injEq] at h
          subst h
          constructor
          · assumption
          · assumption
        · exact ih h
    · exact ih h

theorem searchVector_verified (e d0 X M : ℤ) (v : List ℤ) (x : ℤ)
    (h : searchVector e d0 X M v = Except.ok (some x)) :
    M ≠ 0 ∧ (e * (d0 + x) - 1) % M = 0 := by
  simp only [searchVector] at h
  split at h
  · exact absurd h (by simp)
  · simp only [Except.ok.injEq, Option.some.injEq] at h
    subst h
    apply tryCandidates_verified
    assumption
  · exact tryCandidates_verified _ _ _ _ _ _ _ _ h

theorem searchVectors_verified (e d0 X M : ℤ) (vs : List (List ℤ)) (x : ℤ)
    (h : searchVectors e d0 X M vs = Except.ok (some x)) :
    M ≠ 0 ∧ (e * (d0 + x) - 1) % M = 0 := by
  induction vs with
  | nil =>
    rw [searchVectors] at h
    exact absurd h (by simp)
  | cons v vs ih =>
    rw [searchVectors] at h
    split at h
    · exact absurd h (by simp)
    · simp only [Except.ok.injEq, Option.some.injEq] at h
      subst h
      apply searchVector_verified
      assumption
    · exact ih h

/-- C1: whenever `improved_coppersmith_attack` returns a value `x` (rather
than no root, an exception, or a non-terminating reduction), that `x` exactly
satisfies the original congruence: `e * (d0 + x) - 1` is divisible by `M`.
A candidate root of a reconstructed short-vector polynomial that fails this
independent modular check is never returned, for all integer inputs and all
parameters. -/
theorem coppersmith_returns_verified_root (N e d0 X M m t : ℤ) (fuel : ℕ) (x : ℤ)
    (h : improved_coppersmith_attack N e d0 X M m t fuel
      = some (Except.ok (some x))) :
    M ∣ (e * (d0 + x) - 1) := by
  simp only [improved_coppersmith_attack] at h
  split at h
  · exact absurd h (by simp)
  · split at h
    · exact absurd h (by simp)
    · simp only [Option.some.injEq] at h
      exact Int.dvd_of_emod_eq_zero (searchVectors_verified _ _ _ _ _ _ h).2

/-- C1 witness: the toy instance `e = 3, d0 = 0, X = 4, M = 5` with
`m = 1, t = 2` recovers `x = 2` (indeed `3 * 2 - 1 = 5`), and the theorem
yields the divisibility. -/
theorem coppersmith_returns_verified_root_witness :
    improved_coppersmith_attack 20 3 0 4 5 1 0 30 = some (Except.ok (some 2))
    ∧ (5 : ℤ) ∣ (3 * (0 + 2) - 1) :=
  ⟨by decide, coppersmith_returns_verified_root 20 3 0 4 5 1 0 30 2 (by decide)⟩

/-! ### C5: the orchestrator returns a structured result -/

/-- C5: `PartialKeyExposureAttack.run` never propagates an exception: whenever
the call terminates it returns an `AttackResult`, and that result either has
`success = true` with a recovered value, or has `success = false` together
with a non-empty diagnostic string — both for the no-root outcome and for any
internal exception (caught by `except Exception`). -/
theorem run_returns_structured_result (N e M d0 X m t : ℤ) (fuel : ℕ)
    (r : AttackResult)
    (h : PartialKeyExposureAttack.run N e M d0 X m t fuel = some r) :
    (r.success = true ∧ ∃ x, r.x_recovered = some x)
    ∨ (r.success = false ∧ r.details ≠ "") := by
  unfold PartialKeyExposureAttack.run at h
  split at h
  · exact absurd h (by simp)
  · simp only [Option.some.injEq] at h
    subst h
    exact Or.inl ⟨rfl, _, rfl⟩
  · simp only [Option.some.injEq] at h
    subst h
    exact Or.inr ⟨rfl, by decide⟩
  · simp only [Option.some.injEq] at h
    subst h
    refine Or.inr ⟨rfl, ?_⟩
    intro hcon
    have hlen := congrArg String.length hcon
    rw [String.length_append] at hlen
    have h7 : ("Error: " : String).length = 7 := rfl
    have h0 : ("" : String).length = 0 := rfl
    omega

/-- C5 witness: with `m = -1` the shift-polynomial family is empty, the
Python `max()` raises, and `run` returns a failure result with the non-empty
diagnostic `"Error: max() arg is an empty sequence"`. -/
theorem run_returns_structured_result_witness :
    PartialKeyExposureAttack.run 0 3 5 0 4 (-1) 0 0
      = some ⟨false, none, none, "Error: max() arg is an empty sequence"⟩
    ∧ (((false : Bool) = true ∧ ∃ x : ℤ, (none : Option ℤ) = some x)
        ∨ ((false : Bool) = false
            ∧ ("Error: max() arg is an empty sequence" : String) ≠ "")) :=
  ⟨by decide,
    run_returns_structured_result 0 3 5 0 4 (-1) 0 0
      ⟨false, none, none, "Error: max() arg is an empty sequence"⟩ (by decide)⟩

theorem mem_intRange (n x : ℤ) : x ∈ intRange n ↔ 0 ≤ x ∧ x < n := by
  unfold intRange
  simp only [List.mem_map, List.mem_range, Int.ofNat_eq_natCast]
  constructor
  · rintro ⟨k, hk, rfl⟩
    omega
  · rintro ⟨h0, h1⟩
    exact ⟨x.toNat, by omega, by omega⟩

theorem intRange_nodup (n : ℤ) : (intRange n).Nodup :=
  (List.nodup_range _).map (fun a b h => Int.ofNat.inj h)

theorem filterMap_ite_eq_map_filter {α β : Type} (p : α → Prop) [DecidablePred p]
    (f : α → β) (l : List α) :
    (l.filterMap fun a => if p a then some (f a) else none)
      = (l.filter fun a => decide (p a)).map f := by
  induction l with
  | nil => rfl
  | cons a l ih =>
    by_cases h : p a
    · simp [List.filterMap_cons, List.filter_cons, h, ih]
    · simp [List.filterMap_cons, List.filter_cons, h, ih]

theorem buildPolynomials_eq_map (e d0 M m t : ℤ) :
    buildPolynomials e d0 M m t
      = (shiftPairs m t).map fun ij => buildShiftPoly e d0 M m ij.1 ij.2 := by
  unfold buildPolynomials shiftPairs
  rw [List.map_flatMap]
  congr 1
  funext j
  rw [List.map_map]
  rw [filterMap_ite_eq_map_filter (fun i => i + j ≤ m + t)
    (fun i => buildShiftPoly e d0 M m i j) (intRange (m + 1))]
  rfl

theorem buildShiftPoly_eq_gSpec (e d0 M m i j : ℤ)
    (hi : 0 ≤ i) (hj : 0 ≤ j) (hjm : j ≤ m) :
    buildShiftPoly e d0 M m i j = gSpec e d0 M m i j := by
  simp only [buildShiftPoly, gSpec]
  have hstep1 : (if 0 < i then (Polynomial.mk [1]).mul (xShiftPoly i)
      else Polynomial.mk [1]) = xShiftPoly i := by
    by_cases hip : 0 < i
    · rw [if_pos hip, one_mul_poly]
    · have hi0 : i = 0 := by omega
      subst hi0
      rw [if_neg hip]
      rfl
  rw [hstep1]
  have hstep2 : (if 0 < j then (xShiftPoly i).mul ((fPoly e d0).pow j)
      else xShiftPoly i) = (xShiftPoly i).mul ((fPoly e d0).pow j) := by
    by_cases hjp : 0 < j
    · rw [if_pos hjp]
    · have hj0 : j = 0 := by omega
      subst hj0
      rw [if_neg hjp, show (fPoly e d0).pow 0 = Polynomial.mk [1] from rfl,
        mul_one_poly]
  rw [hstep2]
  by_cases hmj : 0 < m - j
  · rw [if_pos hmj]
  · have hmj0 : m - j = 0 := by omega
    rw [if_neg hmj, hmj0, show ((0 : ℤ).toNat) = 0 from rfl, pow_zero, mulScalar_one]

theorem shiftPairs_mem (m t : ℤ) (ij : ℤ × ℤ) :
    ij ∈ shiftPairs m t ↔
      (0 ≤ ij.1 ∧ ij.1 ≤ m) ∧ (0 ≤ ij.2 ∧ ij.2 ≤ m) ∧ ij.1 + ij.2 ≤ m + t := by
  obtain ⟨i, j⟩ := ij
  unfold shiftPairs
  simp only [List.mem_flatMap, List.mem_map, List.mem_filter, mem_intRange,
    decide_eq_true_eq, Prod.mk.injEq]
  constructor
  · rintro ⟨j', hj', i', ⟨⟨hi', hcond⟩, hieq, hjeq⟩⟩
    subst hieq
    subst hjeq
    exact ⟨⟨hi'.1, by omega⟩, ⟨hj'.1, by omega⟩, hcond⟩
  · rintro ⟨⟨hi0, him⟩, ⟨hj0, hjm⟩, hsum⟩
    exact ⟨j, ⟨hj0, by omega⟩, i, ⟨⟨⟨hi0, by omega⟩, hsum⟩, rfl, rfl⟩⟩

theorem shiftPairs_nodup (m t : ℤ) : (shiftPairs m t).Nodup := by
  unfold shiftPairs
  rw [List.nodup_flatMap]
  constructor
  · intro j _
    apply List.Nodup.map
    · intro a b hab
      simpa using congrArg Prod.fst hab
    · exact List.Nodup.filter _ (intRange_nodup _)
  · refine List.Pairwise.imp ?_ (intRange_nodup (m + 1))
    intro a b hab
    intro x hxa hxb
    obtain ⟨ia, _, hae⟩ := List.mem_map.mp hxa
    obtain ⟨ib, _, hbe⟩ := List.mem_map.mp hxb
    apply hab
    have h2 := congrArg Prod.snd (hae.trans hbe.symm)
    simpa using h2

theorem shiftPairs_length (m t : ℤ) : (shiftPairs m t).length = pairCount m t := by
  rw [← List.toFinset_card_of_nodup (shiftPairs_nodup m t)]
  unfold pairCount
  congr 1
  ext ij
  rw [List.mem_toFinset, shiftPairs_mem, Finset.mem_filter, Finset.mem_product,
    Finset.mem_Icc, Finset.mem_Icc]
  tauto

theorem evaluate_fPoly (e d0 x : ℤ) :
    (fPoly e d0).evaluate x = e * x + (e * d0 - 1) := by
  unfold fPoly Polynomial.evaluate
  simp [List.enum, List.enumFrom]
  ring

theorem getD_xshift_coeffs (n d : ℕ) :
    (List.replicate n (0 : ℤ) ++ [1]).getD d 0 = if d = n then 1 else 0 := by
  rcases lt_trichotomy d n with h | h | h
  · rw [List.getD_append _ _ _ _ (by simpa using h), getD_replicate_zero,
      if_neg (by omega)]
  · subst h
    rw [List.getD_append_right _ _ _ _ (by simp), if_pos rfl]
    simp
  · rw [List.getD_append_right _ _ _ _ (by simp; omega), if_neg (by omega)]
    have : d - (List.replicate n (0 : ℤ)).length ≥ 1 := by simp; omega
    rw [List.getD_eq_getElem?_getD, List.getElem?_eq_none (by simpa using this)]
    rfl

theorem evaluate_xShiftPoly (i : ℤ) (x : ℤ) :
    (xShiftPoly i).evaluate x = x ^ i.toNat := by
  unfold xShiftPoly Polynomial.evaluate
  rw [enum_map_sum (fun k c => c * x ^ k)]
  have hlen : (List.replicate i.toNat (0 : ℤ) ++ [1]).length = i.toNat + 1 := by
    simp
  rw [hlen]
  have hcong : ∀ d ∈ Finset.range (i.toNat + 1),
      (List.replicate i.toNat (0 : ℤ) ++ [1]).getD d 0 * x ^ d
        = if d = i.toNat then x ^ d else 0 := by
    intro d _
    rw [getD_xshift_coeffs]
    by_cases h : d = i.toNat
    · rw [if_pos h, if_pos h, one_mul]
    · rw [if_neg h, if_neg h, zero_mul]
  rw [Finset.sum_congr rfl hcong,
    Finset.sum_ite_eq' (Finset.range (i.toNat + 1)) i.toNat (fun d => x ^ d)]
  rw [if_pos (Finset.mem_range.mpr (by omega))]

theorem evaluate_gSpec (e d0 M m i j x : ℤ) :
    (gSpec e d0 M m i j).evaluate x
      = x ^ i.toNat * ((fPoly e d0).evaluate x) ^ j.toNat * M ^ (m - j).toNat := by
  unfold gSpec
  rw [evaluate_mulScalar, evaluate_mul, evaluate_xShiftPoly, evaluate_pow]

/-- C2: for every `m ≥ 1` and `t ≥ 0` the lattice constructor builds the base
polynomial `f(x) = e*x + (e*d0 - 1)` and generates exactly one shift
polynomial `g_(i,j) = x^i * f(x)^j * M^(m-j)` for each pair `(i, j)` with
`0 ≤ i ≤ m`, `0 ≤ j ≤ m`, `i + j ≤ m + t` (in the source's loop order), and
the number of lattice rows equals the number of such pairs. -/
theorem shift_polynomial_family (e d0 M m t : ℤ) (hm : 1 ≤ m) (ht : 0 ≤ t) :
    (buildPolynomials e d0 M m t).length = pairCount m t
    ∧ buildPolynomials e d0 M m t
        = (shiftPairs m t).map (fun ij => gSpec e d0 M m ij.1 ij.2)
    ∧ (∀ x : ℤ, (fPoly e d0).evaluate x = e * x + (e * d0 - 1))
    ∧ ∀ ij ∈ shiftPairs m t, ∀ x : ℤ,
        (gSpec e d0 M m ij.1 ij.2).evaluate x
          = x ^ ij.1.toNat * (e * x + (e * d0 - 1)) ^ ij.2.toNat
              * M ^ (m - ij.2).toNat := by
  have hmap : buildPolynomials e d0 M m t
      = (shiftPairs m t).map (fun ij => gSpec e d0 M m ij.1 ij.2) := by
    rw [buildPolynomials_eq_map]
    apply List.map_congr_left
    intro ij hij
    obtain ⟨⟨hi0, _⟩, ⟨hj0, hjm⟩, _⟩ := (shiftPairs_mem m t ij).mp hij
    exact buildShiftPoly_eq_gSpec e d0 M m ij.1 ij.2 hi0 hj0 hjm
  refine ⟨?_, hmap, fun x => evaluate_fPoly e d0 x, ?_⟩
  · rw [hmap, List.length_map, shiftPairs_length]
  · intro ij _ x
    rw [evaluate_gSpec, evaluate_fPoly]

/-- C2 witness: the family at `e = 3, d0 = 0, M = 5, m = 1, t = 0` (three
shift polynomials: `M`, `x*M`, `f`). -/
theorem shift_polynomial_family_witness :
    (1 : ℤ) ≤ 1 ∧ (0 : ℤ) ≤ 0
    ∧ ((buildPolynomials 3 0 5 1 0).length = pairCount 1 0
        ∧ buildPolynomials 3 0 5 1 0
            = (shiftPairs 1 0).map (fun ij => gSpec 3 0 5 1 ij.1 ij.2)
        ∧ (∀ x : ℤ, (fPoly 3 0).evaluate x = 3 * x + (3 * 0 - 1))
        ∧ ∀ ij ∈ shiftPairs 1 0, ∀ x : ℤ,
            (gSpec 3 0 5 1 ij.1 ij.2).evaluate x
              = x ^ ij.1.toNat * (3 * x + (3 * 0 - 1)) ^ ij.2.toNat
                  * 5 ^ ((1 : ℤ) - ij.2).toNat) :=
  ⟨by decide, by decide, shift_polynomial_family 3 0 5 1 0 (by decide) (by decide)⟩

/-! ### C4: the lattice basis matrix -/

theorem buildRow_fold_length (X : ℤ) (dim : ℕ) (cs : List ℤ) (s : ℕ) (acc : List ℤ) :
    ((List.enumFrom s cs).foldl
      (fun row dc => if dc.1 < dim then row.set dc.1 (dc.2 * X ^ dc.1) else row)
      acc).length = acc.length := by
  induction cs generalizing s acc with
  | nil => simp
  | cons c rest ih =>
    simp only [List.enumFrom, List.foldl_cons]
    rw [ih (s + 1)]
    by_cases h : s < dim
    · rw [if_pos h, List.length_set]
    · rw [if_neg h]

theorem buildRow_fold_getD (X : ℤ) (dim : ℕ) (cs : List ℤ) (s : ℕ) (acc : List ℤ)
    (d : ℕ) (hlen : acc.length = dim) :
    ((List.enumFrom s cs).foldl
      (fun row dc => if dc.1 < dim then row.set dc.1 (dc.2 * X ^ dc.1) else row)
      acc).getD d 0
      = if s ≤ d ∧ d - s < cs.length ∧ d < dim then cs.getD (d - s) 0 * X ^ d
        else acc.getD d 0 := by
  induction cs generalizing s acc with
  | nil =>
    simp only [List.enumFrom, List.foldl_nil, List.length_nil]
    rw [if_neg (by omega)]
  | cons c rest ih =>
    simp only [List.enumFrom, List.foldl_cons, List.length_cons]
    have hlen' : (if s < dim then acc.set s (c * X ^ s) else acc).length = dim := by
      by_cases h : s < dim
      · rw [if_pos h, List.length_set]; exact hlen
      · rw [if_neg h]; exact hlen
    rw [ih (s + 1) _ hlen']
    by_cases hd : d = s
    · subst hd
      rw [if_neg (by omega : ¬ (d + 1 ≤ d ∧ d - (d + 1) < rest.length ∧ d < dim))]
      by_cases hdim : d < dim
      · rw [if_pos hdim, if_pos ⟨le_refl d, by omega, hdim⟩, Nat.sub_self,
          List.getD_cons_zero, getD_set_eq_ite, if_pos ⟨rfl, by omega⟩]
      · rw [if_neg hdim, if_neg (by omega)]
    · by_cases hin : s + 1 ≤ d ∧ d - (s + 1) < rest.length ∧ d < dim
      · rw [if_pos hin, if_pos (by omega : s ≤ d ∧ d - s < rest.length + 1 ∧ d < dim)]
        have h2 : d - s = (d - (s + 1)) + 1 := by omega
        rw [h2, List.getD_cons_succ]
      · rw [if_neg hin, if_neg (by omega : ¬ (s ≤ d ∧ d - s < rest.length + 1 ∧ d < dim))]
        by_cases hsd : s < dim
        · rw [if_pos hsd, getD_set_eq_ite, if_neg (by omega)]
        · rw [if_neg hsd]

theorem buildRow_length (poly : Polynomial) (X : ℤ) (dim : ℕ) :
    (buildRow poly X dim).length = dim := by
  unfold buildRow
  rw [show poly.coeffs.enum = List.enumFrom 0 poly.coeffs from rfl,
    buildRow_fold_length]
  exact List.length_replicate dim 0

theorem buildRow_getD (poly : Polynomial) (X : ℤ) (dim : ℕ) (d : ℕ) (hd : d < dim) :
    (buildRow poly X dim).getD d 0 = poly.coeffs.getD d 0 * X ^ d := by
  unfold buildRow
  rw [show poly.coeffs.enum = List.enumFrom 0 poly.coeffs from rfl,
    buildRow_fold_getD X dim poly.coeffs 0 _ d (List.length_replicate dim 0)]
  by_cases h : d < poly.coeffs.length
  · rw [if_pos ⟨Nat.zero_le d, by omega, hd⟩]
    congr 1
  · rw [if_neg (by omega), getD_replicate_zero,
      getD_zero_of_le_length poly.coeffs d (by omega), zero_mul]

theorem getD_map_buildRow (l : List Polynomial) (X : ℤ) (dim : ℕ) (kk : ℕ)
    (h : kk < l.length) :
    (l.map fun poly => buildRow poly X dim).getD kk []
      = buildRow (l.getD kk (Polynomial.mk [])) X dim := by
  have hmap : kk < (l.map fun poly => buildRow poly X dim).length := by
    simpa using h
  rw [List.getD_eq_getElem?_getD, List.getElem?_eq_getElem hmap,
    List.getD_eq_getElem?_getD, List.getElem?_eq_getElem h]
  show (l.map fun poly => buildRow poly X dim)[kk] = buildRow l[kk] X dim
  exact List.getElem_map _

/-- C4 counterexample: at `e = 3, d0 = 2, M = 5, X = 2, m = 1, t = 0` the
three shift polynomials are `[5]`, `[0, 5]`, `[5, 3]` — maximum degree 1 — yet
every matrix row has width 3 (the number of shift polynomials), not
`max_degree + 1 = 2`, refuting the claimed column count. -/
theorem lattice_width_counterexample :
    (buildLatticeMatrix (buildPolynomials 3 2 5 1 0) 2).map List.length = [3, 3, 3]
    ∧ (buildPolynomials 3 2 5 1 0).map Polynomial.degree = [0, 1, 1]
    ∧ (3 : ℕ) ≠ 1 + 1 := ⟨by decide, by decide, by decide⟩

/-- C4 (amended): the lattice basis matrix has one row per shift polynomial
and one column per shift polynomial — a square `lattice_dim x lattice_dim`
matrix, where `lattice_dim` is the number of shift polynomials (not the
maximum degree) — and for every degree `d` below `lattice_dim`, the entry of
row `k` at column `d` equals the `k`-th polynomial's degree-`d` coefficient
(zero above its degree) multiplied by `boundX ^ d`. -/
theorem lattice_matrix_shape (e d0 M X m t : ℤ) (hm : 1 ≤ m) (ht : 0 ≤ t) :
    (buildLatticeMatrix (buildPolynomials e d0 M m t) X).length
      = (buildPolynomials e d0 M m t).length
    ∧ (∀ row ∈ buildLatticeMatrix (buildPolynomials e d0 M m t) X,
        row.length = (buildPolynomials e d0 M m t).length)
    ∧ ∀ kk : ℕ, kk < (buildPolynomials e d0 M m t).length →
        ∀ dd : ℕ, dd < (buildPolynomials e d0 M m t).length →
          ((buildLatticeMatrix (buildPolynomials e d0 M m t) X).getD kk []).getD dd 0
            = ((buildPolynomials e d0 M m t).getD kk (Polynomial.mk [])).coeffs.getD dd 0
              * X ^ dd := by
  refine ⟨by unfold buildLatticeMatrix; rw [List.length_map], ?_, ?_⟩
  · intro row hrow
    obtain ⟨poly, _, rfl⟩ := List.mem_map.mp hrow
    exact buildRow_length poly X _
  · intro kk hkk dd hdd
    unfold buildLatticeMatrix
    rw [getD_map_buildRow _ X _ kk hkk, buildRow_getD _ X _ dd hdd]

/-- C4 witness: the amended theorem at `e = 3, d0 = 2, M = 5, X = 2, m = 1,
t = 0` (the concrete matrix `[[5,0,0],[0,10,0],[5,6,0]]`). -/
theorem lattice_matrix_shape_witness :
    (1 : ℤ) ≤ 1 ∧ (0 : ℤ) ≤ 0
    ∧ ((buildLatticeMatrix (buildPolynomials 3 2 5 1 0) 2).length
          = (buildPolynomials 3 2 5 1 0).length
        ∧ (∀ row ∈ buildLatticeMatrix (buildPolynomials 3 2 5 1 0) 2,
            row.length = (buildPolynomials 3 2 5 1 0).length)
        ∧ ∀ kk : ℕ, kk < (buildPolynomials 3 2 5 1 0).length →
            ∀ dd : ℕ, dd < (buildPolynomials 3 2 5 1 0).length →
              ((buildLatticeMatrix (buildPolynomials 3 2 5 1 0) 2).getD kk []).getD dd 0
                = ((buildPolynomials 3 2 5 1 0).getD kk
                    (Polynomial.mk [])).coeffs.getD dd 0 * 2 ^ dd) :=
  ⟨by decide, by decide, lattice_matrix_shape 3 2 5 2 1 0 (by decide) (by decide)⟩

end PKEA
